import Mathlib

/- Formal model of the Computer-Graphics repository: the scan-conversion
   algorithms (DDA line, Bresenham line, midpoint circle) of the algorithm
   visualizer, and the raster / random display simulators.  Each definition
   is translated from the corresponding JavaScript function; machine numbers
   are modelled as `Int` (all the modelled arithmetic is integral except the
   DDA accumulator, modelled as `ℚ`), and the per-step `info` strings, which
   no claim mentions, are omitted. -/

/-- One step of Bresenham's loop, from `bresenhamLine` in the visualizer
sources: emit the current pixel; stop when the endpoint is reached;
otherwise apply the error-doubling update
(`e2 = 2*err; if e2 > -dy {err -= dy; x += sx}; if e2 < dx {err += dx; y += sy}`).
The JS source is an unbounded `while (true)`; here `none` means the given
fuel ran out before the endpoint was reached, and we prove below that the
fuel used by `bresenhamLineOpt` always suffices. -/
def bresLoop (x1 y1 dx dy sx sy : Int) : Nat → Int → Int → Int → Option (List (Int × Int))
  | 0, _, _, _ => none
  | fuel + 1, x, y, err =>
    if x = x1 ∧ y = y1 then some [(x, y)]
    else
      Option.map (fun l => (x, y) :: l)
        (bresLoop x1 y1 dx dy sx sy fuel
          (if 2 * err > -dy then x + sx else x)
          (if 2 * err < dx then y + sy else y)
          (if 2 * err < dx then (if 2 * err > -dy then err - dy else err) + dx
           else (if 2 * err > -dy then err - dy else err)))

/-- `bresenhamLine(x0,y0,x1,y1)` with its setup
(`dx=|x1-x0|; dy=|y1-y0|; sx = x0<x1 ? 1 : -1; sy = y0<y1 ? 1 : -1; err = dx-dy`),
run with fuel `dx+dy+1`. -/
def bresenhamLineOpt (x0 y0 x1 y1 : Int) : Option (List (Int × Int)) :=
  bresLoop x1 y1 (|x1 - x0|) (|y1 - y0|)
    (if x0 < x1 then 1 else -1) (if y0 < y1 then 1 else -1)
    ((|x1 - x0| + |y1 - y0|).toNat + 1)
    x0 y0 (|x1 - x0| - |y1 - y0|)

/-- The pixel sequence produced by the visualizer's `bresenhamLine`
(positions of the pushed `pixelData` entries, in push order). -/
def bresenhamLine (x0 y0 x1 y1 : Int) : List (Int × Int) :=
  (bresenhamLineOpt x0 y0 x1 y1).getD []

example : bresenhamLine 0 0 3 1 = [(0, 0), (1, 0), (2, 1), (3, 1)] := by decide

example : bresenhamLine 2 5 2 5 = [(2, 5)] := by decide

/-- The step direction applied `|x1 - x0|` times lands exactly on `x1`. -/
lemma stepSign_mul_abs (x0 x1 : Int) :
    x0 + (if x0 < x1 then (1 : Int) else -1) * |x1 - x0| = x1 := by
  rcases lt_trichotomy x0 x1 with h | h | h
  · rw [if_pos h, abs_of_nonneg (by omega : (0 : Int) ≤ x1 - x0)]; ring
  · rw [if_neg (by omega), h, sub_self, abs_zero]; ring
  · rw [if_neg (by omega), abs_of_nonpos (by omega : x1 - x0 ≤ 0)]; ring

/-- Cancellation for the step parametrisation: if `x0 + sx*a` equals the
endpoint then `a` equals `|x1 - x0|`. -/
lemma stepSign_mul_cancel (x0 x1 a : Int)
    (h : x0 + (if x0 < x1 then (1 : Int) else -1) * a = x1) : a = |x1 - x0| := by
  rcases lt_trichotomy x0 x1 with h' | h' | h'
  · rw [if_pos h'] at h; rw [abs_of_nonneg (by omega : (0 : Int) ≤ x1 - x0)]; omega
  · rw [if_neg (by omega)] at h; rw [h', sub_self, abs_zero]; omega
  · rw [if_neg (by omega)] at h; rw [abs_of_nonpos (by omega : x1 - x0 ≤ 0)]; omega

/-- Any list produced by `bresLoop` begins with the pixel at the entry
state: the loop body emits `(x, y)` before testing anything else. -/
lemma bresLoop_head {x1 y1 dx dy sx sy : Int} {f : Nat} {x y err : Int}
    {l : List (Int × Int)} (h : bresLoop x1 y1 dx dy sx sy f x y err = some l) :
    l.head? = some (x, y) := by
  cases f with
  | zero => simp [bresLoop] at h
  | succ n =>
    rw [bresLoop] at h
    by_cases hg : x = x1 ∧ y = y1
    · rw [if_pos hg] at h
      cases h
      rfl
    · rw [if_neg hg] at h
      obtain ⟨l0, _, rfl⟩ := Option.map_eq_some'.mp h
      rfl

lemma getLast?_cons_of_some {α : Type} (a : α) {l : List α} {z : α}
    (h : l.getLast? = some z) : (a :: l).getLast? = some z := by
  cases l with
  | nil => simp at h
  | cons b t => rw [List.getLast?_cons_cons]; exact h

/-- Main loop invariant for Bresenham: from the state reached after `a`
x-steps and `b` y-steps (whose error value is `dx*(b+1) - dy*(a+1)`), the
loop needs at most `(dx-a)+(dy-b)` further iterations, and the produced
list ends at the endpoint `(x1, y1)`. -/
lemma bresLoop_reaches (x1 y1 dx dy sx sy x0 y0 : Int)
    (hdx : 0 ≤ dx) (hdy : 0 ≤ dy)
    (hx1 : x0 + sx * dx = x1) (hy1 : y0 + sy * dy = y1)
    (hxc : ∀ a : Int, x0 + sx * a = x1 → a = dx)
    (hyc : ∀ b : Int, y0 + sy * b = y1 → b = dy) :
    ∀ (m : Nat) (a b : Int), 0 ≤ a → a ≤ dx → 0 ≤ b → b ≤ dy →
      dx - a + (dy - b) ≤ (m : Int) →
      ∃ l, bresLoop x1 y1 dx dy sx sy (m + 1) (x0 + sx * a) (y0 + sy * b)
            (dx * (b + 1) - dy * (a + 1)) = some l ∧
          l.getLast? = some (x1, y1) := by
  intro m
  induction m with
  | zero =>
    intro a b ha0 hadx hb0 hbdy hm
    have ha : a = dx := by omega
    have hb : b = dy := by omega
    subst ha; subst hb
    refine ⟨[(x1, y1)], ?_, rfl⟩
    rw [bresLoop, if_pos ⟨hx1, hy1⟩, hx1, hy1]
  | succ n ih =>
    intro a b ha0 hadx hb0 hbdy hm
    by_cases hg : x0 + sx * a = x1 ∧ y0 + sy * b = y1
    · refine ⟨[(x0 + sx * a, y0 + sy * b)], ?_, ?_⟩
      · rw [bresLoop, if_pos hg]
      · rw [hg.1, hg.2]; rfl
    · -- not at the endpoint: at least one of a < dx, b < dy
      have hne : ¬(a = dx ∧ b = dy) := by
        rintro ⟨rfl, rfl⟩; exact hg ⟨hx1, hy1⟩
      set err : Int := dx * (b + 1) - dy * (a + 1) with herr
      -- if a = dx then no further x-step is taken
      have hnoxs : a = dx → b < dy → ¬(2 * err > -dy) := by
        intro hadx' hblt
        have hmul : dx * (b + 1) ≤ dx * dy :=
          mul_le_mul_of_nonneg_left (by omega) hdx
        rw [herr, hadx']
        nlinarith [hmul]
      -- if b = dy then no further y-step is taken
      have hnoys : b = dy → a < dx → ¬(2 * err < dx) := by
        intro hbdy' halt
        have hmul : dy * (a + 1) ≤ dy * dx :=
          mul_le_mul_of_nonneg_left (by omega) hdy
        rw [herr, hbdy']
        nlinarith [hmul]
      -- and at least one of the two step conditions holds
      have hstep : (2 * err > -dy) ∨ (2 * err < dx) := by
        by_contra hc
        push_neg at hc
        obtain ⟨h1, h2⟩ := hc
        have hdx0 : dx = 0 := by linarith
        have hdy0 : dy = 0 := by linarith
        exact hne ⟨by omega, by omega⟩
      have key :
          ∀ a2 b2 : Int, 0 ≤ a2 → a2 ≤ dx → 0 ≤ b2 → b2 ≤ dy →
            dx - a2 + (dy - b2) ≤ (n : Int) →
            (if 2 * err > -dy then x0 + sx * a + sx else x0 + sx * a) = x0 + sx * a2 →
            (if 2 * err < dx then y0 + sy * b + sy else y0 + sy * b) = y0 + sy * b2 →
            (if 2 * err < dx then (if 2 * err > -dy then err - dy else err) + dx
             else (if 2 * err > -dy then err - dy else err)) =
              dx * (b2 + 1) - dy * (a2 + 1) →
            ∃ l, bresLoop x1 y1 dx dy sx sy (n + 1 + 1) (x0 + sx * a) (y0 + sy * b)
                  err = some l ∧ l.getLast? = some (x1, y1) := by
        intro a2 b2 h1 h2 h3 h4 h5 hxe hye hee
        obtain ⟨l, hl, hlast⟩ := ih a2 b2 h1 h2 h3 h4 h5
        refine ⟨(x0 + sx * a, y0 + sy * b) :: l, ?_, getLast?_cons_of_some _ hlast⟩
        rw [bresLoop, if_neg hg, hxe, hye, hee, hl]
        rfl
      by_cases hxs : 2 * err > -dy
      · have haltdx : a < dx := by
          rcases lt_or_eq_of_le hadx with h | h
          · exact h
          · exfalso
            have hblt : b < dy := by omega
            exact hnoxs h hblt hxs
        by_cases hys : 2 * err < dx
        · -- diagonal step
          refine key (a + 1) (b + 1) (by omega) (by omega) (by omega) ?_ (by omega)
            (by rw [if_pos hxs]; ring) (by rw [if_pos hys]; ring)
            (by rw [if_pos hys, if_pos hxs, herr]; ring)
          rcases lt_or_eq_of_le hbdy with h | h
          · omega
          · exact absurd hys (hnoys h haltdx)
        · -- pure x-step
          refine key (a + 1) b (by omega) (by omega) hb0 hbdy (by omega)
            (by rw [if_pos hxs]; ring) (by rw [if_neg hys])
            (by rw [if_neg hys, if_pos hxs, herr]; ring)
      · have hys : 2 * err < dx := hstep.resolve_left hxs
        have hbltdy : b < dy := by
          rcases lt_or_eq_of_le hbdy with h | h
          · exact h
          · exfalso
            have halt : a < dx := by omega
            exact hnoys h halt hys
        -- pure y-step
        refine key a (b + 1) ha0 hadx (by omega) (by omega) (by omega)
          (by rw [if_neg hxs]) (by rw [if_pos hys]; ring)
          (by rw [if_pos hys, if_neg hxs, herr]; ring)

/-- `bresenhamLineOpt` always succeeds, and its list ends at `(x1, y1)`. -/
lemma bresenhamLineOpt_some (x0 y0 x1 y1 : Int) :
    ∃ l, bresenhamLineOpt x0 y0 x1 y1 = some l ∧ l.getLast? = some (x1, y1) := by
  have h := bresLoop_reaches x1 y1 (|x1 - x0|) (|y1 - y0|)
    (if x0 < x1 then 1 else -1) (if y0 < y1 then 1 else -1) x0 y0
    (abs_nonneg _) (abs_nonneg _)
    (stepSign_mul_abs x0 x1) (stepSign_mul_abs y0 y1)
    (fun a ha => stepSign_mul_cancel x0 x1 a ha)
    (fun b hb => stepSign_mul_cancel y0 y1 b hb)
    ((|x1 - x0| + |y1 - y0|).toNat) 0 0 le_rfl (abs_nonneg _) le_rfl (abs_nonneg _)
    (by
      have := Int.self_le_toNat (|x1 - x0| + |y1 - y0|)
      omega)
  simpa [bresenhamLineOpt, mul_zero, add_zero, zero_add, mul_one] using h

/-- Every list produced by `bresLoop` is 8-connected when the step
directions are unit steps: consecutive emitted pixels differ by at most 1
in each coordinate. -/
lemma bresLoop_chain (x1 y1 dx dy sx sy : Int)
    (hsx : sx = 1 ∨ sx = -1) (hsy : sy = 1 ∨ sy = -1) :
    ∀ (f : Nat) (x y err : Int) (l : List (Int × Int)),
      bresLoop x1 y1 dx dy sx sy f x y err = some l →
      List.Chain' (fun p q => |q.1 - p.1| ≤ 1 ∧ |q.2 - p.2| ≤ 1) l := by
  intro f
  induction f with
  | zero => intro x y err l h; simp [bresLoop] at h
  | succ n ih =>
    intro x y err l h
    rw [bresLoop] at h
    by_cases hg : x = x1 ∧ y = y1
    · rw [if_pos hg] at h
      cases h
      simp
    · rw [if_neg hg] at h
      obtain ⟨l0, hrec, rfl⟩ := Option.map_eq_some'.mp h
      refine List.chain'_cons'.mpr ⟨?_, ih _ _ _ _ hrec⟩
      intro z hz
      rw [bresLoop_head hrec] at hz
      cases hz
      constructor
      · by_cases hxs : 2 * err > -dy
        · rw [if_pos hxs]
          rcases hsx with h | h <;> rw [h] <;> simp
        · rw [if_neg hxs]; simp
      · by_cases hys : 2 * err < dx
        · rw [if_pos hys]
          rcases hsy with h | h <;> rw [h] <;> simp
        · rw [if_neg hys]; simp

/-- C1: For every integer input `(x0,y0,x1,y1)`, the pixel sequence
produced by `bresenhamLine` starts at `(x0,y0)`, ends at `(x1,y1)`, has
length at least 1, and every pair of consecutive emitted pixels differs by
at most 1 in the x coordinate and at most 1 in the y coordinate
(8-connectivity). -/
theorem bresenhamLine_endpoints_connected (x0 y0 x1 y1 : Int) :
    (bresenhamLine x0 y0 x1 y1).head? = some (x0, y0) ∧
    (bresenhamLine x0 y0 x1 y1).getLast? = some (x1, y1) ∧
    1 ≤ (bresenhamLine x0 y0 x1 y1).length ∧
    List.Chain' (fun p q => |q.1 - p.1| ≤ 1 ∧ |q.2 - p.2| ≤ 1)
      (bresenhamLine x0 y0 x1 y1) := by
  obtain ⟨l, hl, hlast⟩ := bresenhamLineOpt_some x0 y0 x1 y1
  have hline : bresenhamLine x0 y0 x1 y1 = l := by
    rw [bresenhamLine, hl]; rfl
  have hhead : l.head? = some (x0, y0) := bresLoop_head hl
  refine ⟨by rw [hline]; exact hhead, by rw [hline]; exact hlast, ?_, ?_⟩
  · rw [hline]
    cases l with
    | nil => simp at hhead
    | cons a t => simp
  · rw [hline]
    exact bresLoop_chain _ _ _ _ _ _
      (by by_cases h : x0 < x1 <;> simp [h])
      (by by_cases h : y0 < y1 <;> simp [h]) _ _ _ _ _ hl

/-- C8: `bresenhamLine` terminates for every integer input (the fuelled
loop always returns `some` within the fuel `bresenhamLineOpt` provides),
and in the degenerate case `x0 = x1 ∧ y0 = y1` it emits the single pixel
`(x0, y0)`. -/
theorem bresenhamLine_terminates (x0 y0 x1 y1 : Int) :
    (bresenhamLineOpt x0 y0 x1 y1).isSome = true ∧
    bresenhamLine x0 y0 x0 y0 = [(x0, y0)] := by
  constructor
  · obtain ⟨l, hl, _⟩ := bresenhamLineOpt_some x0 y0 x1 y1
    rw [hl]; rfl
  · rw [bresenhamLine, bresenhamLineOpt]
    simp [bresLoop]

/-- The DDA loop from `ddaLine` in the visualizer sources: for
`i = 0 .. steps` emit `(round x, round y)`, then advance the accumulators
by the per-step increments.  The JS floating-point accumulators are
modelled exactly over `ℚ` (the claims settled here depend only on the
iteration count and on the first emitted pixel, which carry no rounding
error in either arithmetic). -/
def ddaLoop (xInc yInc : ℚ) : Nat → ℚ → ℚ → List (Int × Int)
  | 0, x, y => [(round x, round y)]
  | n + 1, x, y => (round x, round y) :: ddaLoop xInc yInc n (x + xInc) (y + yInc)

/-- `ddaLine(x0,y0,x1,y1)`: `dx = x1-x0`, `dy = y1-y0`,
`steps = max(|dx|,|dy|)`, increments `dx/steps`, `dy/steps` (for
`steps = 0` the JS increments are `NaN` and the Lean ones are `0`; the
loop body emits before incrementing, so the single emitted pixel agrees). -/
def ddaLine (x0 y0 x1 y1 : Int) : List (Int × Int) :=
  ddaLoop (((x1 - x0 : Int) : ℚ) / (max (x1 - x0).natAbs (y1 - y0).natAbs : ℚ))
    (((y1 - y0 : Int) : ℚ) / (max (x1 - x0).natAbs (y1 - y0).natAbs : ℚ))
    (max (x1 - x0).natAbs (y1 - y0).natAbs) (x0 : ℚ) (y0 : ℚ)


lemma ddaLoop_length (xInc yInc : ℚ) :
    ∀ (n : Nat) (x y : ℚ), (ddaLoop xInc yInc n x y).length = n + 1 := by
  intro n
  induction n with
  | zero => intro x y; rfl
  | succ k ih => intro x y; simpa [ddaLoop] using ih (x + xInc) (y + yInc)

/-- C2: For every integer input, `ddaLine` emits exactly `steps + 1`
pixels, where `steps = max(|x1-x0|, |y1-y0|)`; in the degenerate case
`x0 = x1 ∧ y0 = y1` (`steps = 0`) it emits exactly one step, at
`(x0, y0)`. -/
theorem ddaLine_step_count (x0 y0 x1 y1 : Int) :
    (ddaLine x0 y0 x1 y1).length = max (x1 - x0).natAbs (y1 - y0).natAbs + 1 ∧
    ddaLine x0 y0 x0 y0 = [(x0, y0)] := by
  constructor
  · exact ddaLoop_length _ _ _ _ _
  · rw [ddaLine]
    simp [ddaLoop]

/-- The bounds filter used by the display simulator: the JS condition
`x >= 0 && x < canvasWidth && y >= 0 && y < canvasHeight`. -/
def inBnds (w h : Int) (p : Int × Int) : Bool :=
  decide (0 ≤ p.1 ∧ p.1 < w ∧ 0 ≤ p.2 ∧ p.2 < h)

/-- The loop of the simulator's `bresenhamLinePixels`: identical stepping
to `bresLoop`, but a pixel is pushed only when it passes the canvas bounds
check. -/
def bresPixLoop (x1 y1 dx dy sx sy w h : Int) :
    Nat → Int → Int → Int → Option (List (Int × Int))
  | 0, _, _, _ => none
  | fuel + 1, x, y, err =>
    if x = x1 ∧ y = y1 then some (if inBnds w h (x, y) then [(x, y)] else [])
    else
      Option.map (fun l => if inBnds w h (x, y) then (x, y) :: l else l)
        (bresPixLoop x1 y1 dx dy sx sy w h fuel
          (if 2 * err > -dy then x + sx else x)
          (if 2 * err < dx then y + sy else y)
          (if 2 * err < dx then (if 2 * err > -dy then err - dy else err) + dx
           else (if 2 * err > -dy then err - dy else err)))

/-- The pixel-position sequence of the simulator's
`bresenhamLinePixels(x0,y0,x1,y1,canvasWidth,canvasHeight)`. -/
def bresenhamLinePixels (x0 y0 x1 y1 w h : Int) : List (Int × Int) :=
  (bresPixLoop x1 y1 (|x1 - x0|) (|y1 - y0|)
    (if x0 < x1 then 1 else -1) (if y0 < y1 then 1 else -1) w h
    ((|x1 - x0| + |y1 - y0|).toNat + 1)
    x0 y0 (|x1 - x0| - |y1 - y0|)).getD []

example : bresenhamLinePixels (-2) 0 3 1 3 2 =
    [(0, 0), (1, 1), (2, 1)] := by decide

/-- The bounded loop computes exactly the unbounded loop followed by the
bounds filter, fuel for fuel. -/
lemma bresPixLoop_eq_filter (x1 y1 dx dy sx sy w h : Int) :
    ∀ (f : Nat) (x y err : Int),
      bresPixLoop x1 y1 dx dy sx sy w h f x y err =
        Option.map (List.filter (inBnds w h)) (bresLoop x1 y1 dx dy sx sy f x y err) := by
  intro f
  induction f with
  | zero => intro x y err; rfl
  | succ n ih =>
    intro x y err
    rw [bresPixLoop, bresLoop]
    by_cases hg : x = x1 ∧ y = y1
    · rw [if_pos hg, if_pos hg]
      by_cases hb : inBnds w h (x, y)
      · simp [List.filter, hb]
      · simp [List.filter, hb]
    · rw [if_neg hg, if_neg hg, ih]
      cases hrec : bresLoop x1 y1 dx dy sx sy n
          (if 2 * err > -dy then x + sx else x)
          (if 2 * err < dx then y + sy else y)
          (if 2 * err < dx then (if 2 * err > -dy then err - dy else err) + dx
           else (if 2 * err > -dy then err - dy else err)) with
      | none => rfl
      | some l =>
        by_cases hb : inBnds w h (x, y)
        · simp [List.filter, hb]
        · simp [List.filter, hb]

/-- Helper form of the agreement between the two Bresenham
implementations, used for the safety and refinement claims. -/
lemma bresenhamLinePixels_eq_filter_helper (x0 y0 x1 y1 w h : Int) :
    bresenhamLinePixels x0 y0 x1 y1 w h =
      (bresenhamLine x0 y0 x1 y1).filter (inBnds w h) := by
  rw [bresenhamLinePixels, bresenhamLine, bresenhamLineOpt, bresPixLoop_eq_filter]
  cases bresLoop x1 y1 (|x1 - x0|) (|y1 - y0|)
      (if x0 < x1 then 1 else -1) (if y0 < y1 then 1 else -1)
      ((|x1 - x0| + |y1 - y0|).toNat + 1) x0 y0 (|x1 - x0| - |y1 - y0|) with
  | none => rfl
  | some l => rfl

/-- C10: The two Bresenham implementations agree: for every integer input
and canvas bounds, the pixel-position sequence returned by the simulator's
`bresenhamLinePixels` equals the sequence produced by the visualizer's
`bresenhamLine` restricted to the pixels lying within
`0 ≤ x < canvasWidth` and `0 ≤ y < canvasHeight` (so when every pixel of
the line is in bounds the two sequences are identical). -/
theorem bresenhamLinePixels_refines (x0 y0 x1 y1 w h : Int) :
    bresenhamLinePixels x0 y0 x1 y1 w h =
      (bresenhamLine x0 y0 x1 y1).filter (inBnds w h) :=
  bresenhamLinePixels_eq_filter_helper x0 y0 x1 y1 w h

/-- Framebuffer cell colors of the raster simulator: the background fill
and the line color written along rasterized segments (the JS strings are
dark-mode dependent; only the bg / line distinction matters here). -/
inductive RColor
  | bg
  | line
deriving DecidableEq

/-- A user-drawn line segment of the simulator (an entry of `drawnLines`). -/
structure Segment where
  x1 : Int
  y1 : Int
  x2 : Int
  y2 : Int

/-- One guarded framebuffer write from `initializeRasterBuffer`:
`if (p.y >= 0 && p.y < height && p.x >= 0 && p.x < width) buffer[p.y][p.x] = lineColor`. -/
def writeLinePixel (w h : Int) (buf : Int → Int → RColor) (p : Int × Int) :
    Int → Int → RColor :=
  if 0 ≤ p.2 ∧ p.2 < h ∧ 0 ≤ p.1 ∧ p.1 < w then
    fun y x => if y = p.2 ∧ x = p.1 then RColor.line else buf y x
  else buf

/-- `initializeRasterBuffer`: allocate a `height × width` buffer filled
with the background color, then for each drawn segment write the line
color along its `bresenhamLinePixels` rasterization (in list order). -/
def initializeRasterBuffer (segs : List Segment) (w h : Int) : Int → Int → RColor :=
  segs.foldl
    (fun buf seg =>
      (bresenhamLinePixels seg.x1 seg.y1 seg.x2 seg.y2 w h).foldl (writeLinePixel w h) buf)
    (fun _ _ => RColor.bg)

/-- Cursor and visible-surface state of the raster simulator:
`currentScanline`, `currentPixelInScanline`, and the set of cells drawn to
the surface since the last clear. -/
structure RasterState where
  scanline : Nat
  col : Nat
  drawn : List (Nat × Nat)
deriving DecidableEq

/-- Observable output of one raster tick: either one framebuffer cell is
drawn to the surface, or frame completion is reported. -/
inductive RasterEvent
  | cell (y x : Nat) (c : RColor)
  | frameComplete
deriving DecidableEq

/-- One tick of `animateRasterDisplay`: if the cursor is inside the frame,
read `buffer[scanline][column]`, draw that cell and advance the cursor
(wrapping the column into the next scanline); otherwise clear the surface,
reset the cursor to `(0,0)` and report frame completion.  The JS callback
unconditionally reschedules itself, so the tick is a total function and
the simulator never stops. -/
def animateRasterDisplay (w h : Nat) (buf : Int → Int → RColor) (st : RasterState) :
    RasterState × RasterEvent :=
  if st.scanline < h ∧ st.col < w then
    if st.col + 1 ≥ w then
      (⟨st.scanline + 1, 0, (st.scanline, st.col) :: st.drawn⟩,
        RasterEvent.cell st.scanline st.col (buf st.scanline st.col))
    else
      (⟨st.scanline, st.col + 1, (st.scanline, st.col) :: st.drawn⟩,
        RasterEvent.cell st.scanline st.col (buf st.scanline st.col))
  else
    (⟨0, 0, []⟩, RasterEvent.frameComplete)

/-- Iterated raster ticks, collecting the emitted events in order. -/
def rasterTrace (w h : Nat) (buf : Int → Int → RColor) :
    Nat → RasterState → List RasterEvent × RasterState
  | 0, st => ([], st)
  | n + 1, st =>
    ((animateRasterDisplay w h buf st).2 ::
        (rasterTrace w h buf n (animateRasterDisplay w h buf st).1).1,
      (rasterTrace w h buf n (animateRasterDisplay w h buf st).1).2)

/-- One in-frame raster tick, stated at the cursor position `k` (row-major
cell index): it draws cell `(k / w, k % w)` and moves the cursor to cell
index `k + 1`. -/
lemma animateRasterDisplay_at (w h : Nat) (buf : Int → Int → RColor)
    (k : Nat) (d : List (Nat × Nat)) (hw : 1 ≤ w) (hk : k < w * h) :
    animateRasterDisplay w h buf ⟨k / w, k % w, d⟩ =
      (⟨(k + 1) / w, (k + 1) % w, (k / w, k % w) :: d⟩,
        RasterEvent.cell (k / w) (k % w) (buf ((k / w : Nat) : Int) ((k % w : Nat) : Int))) := by
  have hw0 : 0 < w := hw
  have hmod : k % w < w := Nat.mod_lt _ hw0
  have hdiv : k / w < h := by
    rw [Nat.div_lt_iff_lt_mul hw0, Nat.mul_comm]
    exact hk
  have hdm : w * (k / w) + k % w = k := Nat.div_add_mod k w
  rw [animateRasterDisplay]
  rw [if_pos ⟨hdiv, hmod⟩]
  by_cases hwrap : k % w + 1 ≥ w
  · have hew : k % w + 1 = w := by omega
    have hmul : w * (k / w + 1) = w * (k / w) + w := by ring
    have h1 : k + 1 = w * (k / w + 1) := by omega
    have hd2 : (k + 1) / w = k / w + 1 := by
      rw [h1, Nat.mul_div_cancel_left _ hw0]
    have hm2 : (k + 1) % w = 0 := by
      rw [h1, Nat.mul_mod_right]
    rw [if_pos hwrap, hd2, hm2]
  · have hlt : k % w + 1 < w := by omega
    have huniq : (k + 1) / w = k / w ∧ (k + 1) % w = k % w + 1 :=
      (Nat.div_mod_unique hw0).mpr ⟨by omega, hlt⟩
    rw [if_neg hwrap, huniq.1, huniq.2]

/-- A raster sweep of `n` ticks starting at cell index `k` (with
`k + n ≤ w * h`) draws the cells with row-major indices
`k, k+1, ..., k+n-1`, ending at cell index `k + n`. -/
lemma rasterTrace_formula (w h : Nat) (buf : Int → Int → RColor) (hw : 1 ≤ w) :
    ∀ (n k : Nat) (d : List (Nat × Nat)), k + n ≤ w * h →
      (rasterTrace w h buf n ⟨k / w, k % w, d⟩).1 =
          (List.range' k n).map
            (fun j => RasterEvent.cell (j / w) (j % w)
              (buf ((j / w : Nat) : Int) ((j % w : Nat) : Int))) ∧
        (rasterTrace w h buf n ⟨k / w, k % w, d⟩).2.scanline = (k + n) / w ∧
        (rasterTrace w h buf n ⟨k / w, k % w, d⟩).2.col = (k + n) % w := by
  intro n
  induction n with
  | zero =>
    intro k d hk
    refine ⟨rfl, by simp [rasterTrace], by simp [rasterTrace]⟩
  | succ m ih =>
    intro k d hk
    have hstep := animateRasterDisplay_at w h buf k d hw (by omega)
    have hrec := ih (k + 1) ((k / w, k % w) :: d) (by omega)
    rw [rasterTrace, hstep]
    refine ⟨?_, ?_, ?_⟩
    · simp only [List.range'_succ, List.map_cons]
      rw [hrec.1]
    · rw [hrec.2.1]
      congr 1
      omega
    · rw [hrec.2.2]
      congr 1
      omega

/-- C5: For every surface of size `w × h` (`w, h ≥ 1`) and any framebuffer
contents, one full raster sweep starting from cursor `(0,0)` performs
exactly `w*h` cell-drawing ticks, one per framebuffer cell in row-major
order; the cursor then stands at `scanline = h`, and the tick taken there
clears the surface, resets the cursor to `(0,0)` and reports frame
completion — after which the next tick draws cell `(0,0)` again, so the
simulator keeps sweeping rather than stopping. -/
theorem raster_sweep (w h : Nat) (buf : Int → Int → RColor) (hw : 1 ≤ w) (hh : 1 ≤ h) :
    (rasterTrace w h buf (w * h) ⟨0, 0, []⟩).1 =
        (List.range (w * h)).map
          (fun j => RasterEvent.cell (j / w) (j % w)
            (buf ((j / w : Nat) : Int) ((j % w : Nat) : Int))) ∧
      (rasterTrace w h buf (w * h) ⟨0, 0, []⟩).2.scanline = h ∧
      (rasterTrace w h buf (w * h) ⟨0, 0, []⟩).2.col = 0 ∧
      (∀ d, animateRasterDisplay w h buf ⟨h, 0, d⟩ =
        (⟨0, 0, []⟩, RasterEvent.frameComplete)) ∧
      (animateRasterDisplay w h buf ⟨0, 0, []⟩).2 =
        RasterEvent.cell 0 0 (buf ((0 : Nat) : Int) ((0 : Nat) : Int)) := by
  have hw0 : 0 < w := hw
  have h0 := rasterTrace_formula w h buf hw (w * h) 0 [] (by omega)
  rw [Nat.zero_div, Nat.zero_mod] at h0
  refine ⟨?_, ?_, ?_, ?_, ?_⟩
  · rw [h0.1, List.range_eq_range']
  · rw [h0.2.1, Nat.zero_add, Nat.mul_div_cancel_left _ hw0]
  · rw [h0.2.2, Nat.zero_add, Nat.mul_mod_right]
  · intro d
    rw [animateRasterDisplay, if_neg (by simp)]
  · rw [animateRasterDisplay, if_pos ⟨hh, hw⟩]
    split
    · rfl
    · rfl

/-- Witness for C5 at `w = h = 2` with a background-only framebuffer. -/
theorem raster_sweep_witness :
    (rasterTrace 2 2 (fun _ _ => RColor.bg) 4 ⟨0, 0, []⟩).1 =
      (List.range 4).map (fun j => RasterEvent.cell (j / 2) (j % 2) RColor.bg) :=
  (raster_sweep 2 2 (fun _ _ => RColor.bg) (by decide) (by decide)).1

/-- A predicate preserved by every element-wise `foldl` step holds of the
fold's result. -/
lemma foldl_preserve {α β : Type} (P : β → Prop) (f : β → α → β)
    (hf : ∀ b a, P b → P (f b a)) :
    ∀ (l : List α) (b : β), P b → P (l.foldl f b) := by
  intro l
  induction l with
  | nil => intro b hb; exact hb
  | cons a t ih => intro b hb; exact ih _ (hf b a hb)

/-- C9: Every framebuffer access made by the raster simulator is within
bounds: `bresenhamLinePixels` emits only pixels with
`0 ≤ x < canvasWidth` and `0 ≤ y < canvasHeight` (segments extending past
the surface are clipped), `initializeRasterBuffer` writes the line color
only to cells passing that bounds check, and a raster tick draws
`buffer[scanline][column]` only when `scanline < height` and
`column < width` — for any segment list, including segments with
endpoints outside the surface. -/
theorem raster_access_in_bounds :
    (∀ (x0 y0 x1 y1 w h : Int) (p : Int × Int),
        p ∈ bresenhamLinePixels x0 y0 x1 y1 w h →
          0 ≤ p.1 ∧ p.1 < w ∧ 0 ≤ p.2 ∧ p.2 < h) ∧
    (∀ (segs : List Segment) (w h y x : Int),
        initializeRasterBuffer segs w h y x = RColor.line →
          0 ≤ y ∧ y < h ∧ 0 ≤ x ∧ x < w) ∧
    (∀ (w h : Nat) (buf : Int → Int → RColor) (st : RasterState)
        (y x : Nat) (c : RColor),
        (animateRasterDisplay w h buf st).2 = RasterEvent.cell y x c →
          y < h ∧ x < w ∧ y = st.scanline ∧ x = st.col ∧ c = buf st.scanline st.col) := by
  refine ⟨?_, ?_, ?_⟩
  · intro x0 y0 x1 y1 w h p hp
    rw [bresenhamLinePixels_eq_filter_helper] at hp
    have := List.of_mem_filter hp
    rw [inBnds, decide_eq_true_eq] at this
    exact this
  · intro segs w h y x
    refine foldl_preserve
      (fun buf : Int → Int → RColor => buf y x = RColor.line → 0 ≤ y ∧ y < h ∧ 0 ≤ x ∧ x < w) _
      ?_ segs _ (by intro hc; cases hc)
    intro buf seg hbuf
    refine foldl_preserve
      (fun buf : Int → Int → RColor => buf y x = RColor.line → 0 ≤ y ∧ y < h ∧ 0 ≤ x ∧ x < w) _
      ?_ _ buf hbuf
    intro b p hb
    rw [writeLinePixel]
    by_cases hin : 0 ≤ p.2 ∧ p.2 < h ∧ 0 ≤ p.1 ∧ p.1 < w
    · rw [if_pos hin]
      by_cases hyx : y = p.2 ∧ x = p.1
      · intro _
        obtain ⟨rfl, rfl⟩ := hyx
        exact ⟨hin.1, hin.2.1, hin.2.2.1, hin.2.2.2⟩
      · rw [if_neg hyx]
        exact hb
    · rw [if_neg hin]
      exact hb
  · intro w h buf st y x c hev
    rw [animateRasterDisplay] at hev
    by_cases hg : st.scanline < h ∧ st.col < w
    · rw [if_pos hg] at hev
      by_cases hwrap : st.col + 1 ≥ w
      · rw [if_pos hwrap] at hev
        cases hev
        exact ⟨hg.1, hg.2, rfl, rfl, rfl⟩
      · rw [if_neg hwrap] at hev
        cases hev
        exact ⟨hg.1, hg.2, rfl, rfl, rfl⟩
    · rw [if_neg hg] at hev
      cases hev

/-- Witness for C9: a clipped pixel membership at a concrete input
(segment `(-2,0)–(3,1)` on a `3 × 2` surface). -/
theorem raster_access_in_bounds_witness :
    0 ≤ (2 : Int) ∧ (2 : Int) < 3 ∧ 0 ≤ (1 : Int) ∧ (1 : Int) < 2 :=
  raster_access_in_bounds.1 (-2) 0 3 1 3 2 (2, 1) (by decide)

/-- Observable output of one random-scan tick (after the tick has cleared
the surface and re-stroked every segment): either the segment at the
current index is re-stroked highlighted (with `wrapped = true` when the
advance wrapped past the last segment, which is when refresh completion is
reported), or — when the index is already past the list — the index is
just reset and completion reported. -/
inductive RandomEvent
  | highlight (idx : Nat) (wrapped : Bool)
  | reset
deriving DecidableEq

/-- One tick of `animateRandomDisplay` over a display file of `n`
segments, acting on `currentLineIndex`: highlight the segment at the
current index, advance the index, wrap it to 0 after the last segment
(reporting refresh completion at each wrap). -/
def animateRandomDisplay (n i : Nat) : Nat × RandomEvent :=
  if i < n then
    if i + 1 ≥ n then (0, RandomEvent.highlight i true)
    else (i + 1, RandomEvent.highlight i false)
  else (0, RandomEvent.reset)

/-- The index after `k` random-scan ticks from index `i`. -/
def randomSteps (n : Nat) : Nat → Nat → Nat
  | 0, i => i
  | k + 1, i => randomSteps n k (animateRandomDisplay n i).1

/-- The events of `k` random-scan ticks from index `i`, in order. -/
def randomEvents (n : Nat) : Nat → Nat → List RandomEvent
  | 0, _ => []
  | k + 1, i => (animateRandomDisplay n i).2 :: randomEvents n k (animateRandomDisplay n i).1

lemma animateRandomDisplay_step (n i : Nat) (hi : i < n) :
    (animateRandomDisplay n i).1 = (i + 1) % n := by
  rw [animateRandomDisplay, if_pos hi]
  by_cases hw : i + 1 ≥ n
  · have : i + 1 = n := by omega
    rw [if_pos hw, this, Nat.mod_self]
  · rw [if_neg hw, Nat.mod_eq_of_lt (by omega)]

lemma randomSteps_formula (n : Nat) (hn : 1 ≤ n) :
    ∀ (k i : Nat), i < n → randomSteps n k i = (i + k) % n := by
  intro k
  induction k with
  | zero => intro i hi; rw [randomSteps, Nat.add_zero, Nat.mod_eq_of_lt hi]
  | succ m ih =>
    intro i hi
    rw [randomSteps, animateRandomDisplay_step n i hi,
      ih ((i + 1) % n) (Nat.mod_lt _ (by omega)), Nat.mod_add_mod]
    congr 1
    omega

lemma randomEvents_formula (n : Nat) :
    ∀ (k i : Nat), i + k ≤ n →
      randomEvents n k i =
        (List.range' i k).map (fun j => RandomEvent.highlight j (decide (j + 1 = n))) := by
  intro k
  induction k with
  | zero => intro i _; rfl
  | succ m ih =>
    intro i hik
    have hi : i < n := by omega
    rw [randomEvents, List.range'_succ, List.map_cons]
    rw [animateRandomDisplay, if_pos hi]
    by_cases hw : i + 1 ≥ n
    · have hone : i + 1 = n := by omega
      have hm0 : m = 0 := by omega
      subst hm0
      rw [if_pos hw]
      simp [randomEvents, hone]
    · rw [if_neg hw]
      have hd : decide (i + 1 = n) = false := by
        simp only [decide_eq_false_iff_not]
        omega
      rw [hd, ih (i + 1) (by omega)]

/-- C6: For a fixed non-empty display file of `n` segments, the
random-scan simulator's `segmentIndex` cycles with period exactly `n`:
each tick highlights the segment at the current index and then advances it
by one modulo `n`, reporting refresh completion exactly at each wrap; a
full cycle of `n` ticks from index 0 highlights the segments
`0, 1, ..., n-1` each exactly once, and the index returns to 0 exactly at
multiples of `n`. -/
theorem random_scan_cycle (n : Nat) (hn : 1 ≤ n) :
    randomEvents n n 0 =
        (List.range n).map (fun j => RandomEvent.highlight j (decide (j + 1 = n))) ∧
      (∀ i, i < n → (animateRandomDisplay n i).1 = (i + 1) % n) ∧
      (∀ k, randomSteps n k 0 = k % n) ∧
      (∀ k, randomSteps n k 0 = 0 ↔ n ∣ k) := by
  have hsteps : ∀ k, randomSteps n k 0 = k % n := by
    intro k
    rw [randomSteps_formula n hn k 0 (by omega), Nat.zero_add]
  refine ⟨?_, ?_, hsteps, ?_⟩
  · rw [randomEvents_formula n n 0 (by omega), List.range_eq_range']
  · intro i hi
    exact animateRandomDisplay_step n i hi
  · intro k
    rw [hsteps k]
    constructor
    · intro hk
      exact Nat.dvd_of_mod_eq_zero hk
    · intro hk
      exact Nat.mod_eq_zero_of_dvd hk

/-- Witness for C6 at `n = 3`. -/
theorem random_scan_cycle_witness :
    randomEvents 3 3 0 =
      (List.range 3).map (fun j => RandomEvent.highlight j (decide (j + 1 = 3))) :=
  (random_scan_cycle 3 (by decide)).1

/-- The eight symmetric octant points pushed by `drawCirclePoints(px,py)`
inside `midpointCircle`, in push order. -/
def octPoints (cx cy px py : Int) : List (Int × Int) :=
  [(cx + px, cy + py), (cx + py, cy + px), (cx - px, cy + py), (cx - py, cy + px),
   (cx - px, cy - py), (cx - py, cy - px), (cx + px, cy - py), (cx + py, cy - px)]

/-- The `(x, y)` offset pairs visited by the `while (x < y)` loop of
`midpointCircle` after each decision-parameter update (`x++`; if `p < 0`
then `p += 2x+1` else `y--; p += 2x+1-2y`), excluding the initial pair. -/
def midLoopPairs (x y p : Int) : List (Int × Int) :=
  if x < y then
    if p < 0 then (x + 1, y) :: midLoopPairs (x + 1) y (p + 2 * (x + 1) + 1)
    else (x + 1, y - 1) :: midLoopPairs (x + 1) (y - 1) (p + 2 * (x + 1) + 1 - 2 * (y - 1))
  else []
termination_by (y - x).toNat
decreasing_by
  · omega
  · omega

/-- All `(x, y)` offset pairs emitted by `midpointCircle(cx,cy,r)`:
the initial pair `(0, r)` followed by the loop's pairs, starting from the
decision parameter `p = 1 - r`. -/
def midPairs (r : Int) : List (Int × Int) :=
  (0, r) :: midLoopPairs 0 r (1 - r)

/-- The pixel sequence produced by `midpointCircle(cx,cy,r)`: the eight
octant points of every visited pair, in generation order. -/
def midpointCircle (cx cy r : Int) : List (Int × Int) :=
  (midPairs r).flatMap (fun q => octPoints cx cy q.1 q.2)

example : (0, 5) ∈ midpointCircle 0 0 5 ∧ (5, 0) ∈ midpointCircle 0 0 5 ∧
    (0, -5) ∈ midpointCircle 0 0 5 ∧ (-5, 0) ∈ midpointCircle 0 0 5 := by decide

/-- The algorithm selector of the visualizer. -/
inductive Algo
  | dda
  | bresenham
  | midpointCircle
deriving DecidableEq

/-- The validation errors raised by `handleStartVisualization` (the JS
user-visible message strings, as an enumeration), plus the fallback
message shown when an algorithm produced no pixels. -/
inductive StartError
  | invalidLineCoords
  | invalidCircleCoords
  | nonPositiveRadius
  | noPixels
deriving DecidableEq

/-- Outcome of one click of the start button: whether the drawing surface
was cleared during the handler, the pixel sequence handed to playback, the
error reported (if any), and whether playback was started. -/
structure StartResult where
  surfaceCleared : Bool
  pixelData : List (Int × Int)
  errorMsg : Option StartError
  animating : Bool
deriving DecidableEq

/-- `handleStartVisualization` from the React visualizer: it first calls
`clearGraphicsCanvas()` (clearing the surface and resetting playback
state), then validates the inputs of the selected algorithm — numeric
coordinates for the line algorithms; numeric center/radius and positive
radius for the circle — reporting a message and aborting on failure, and
only then invokes the selected algorithm and starts playback.  A numeric
input field whose parsed value is `NaN` is modelled as `none`. -/
def handleStartVisualization (algo : Algo)
    (x0 y0 x1 y1 cx cy radius : Option Int) : StartResult :=
  match algo with
  | Algo.dda | Algo.bresenham =>
    match x0, y0, x1, y1 with
    | some a, some b, some c, some d =>
      let px := if algo = Algo.dda then ddaLine a b c d else bresenhamLine a b c d
      if px.length > 0 then ⟨true, px, none, true⟩
      else ⟨true, [], some StartError.noPixels, false⟩
    | _, _, _, _ => ⟨true, [], some StartError.invalidLineCoords, false⟩
  | Algo.midpointCircle =>
    match cx, cy, radius with
    | some a, some b, some r =>
      if r ≤ 0 then ⟨true, [], some StartError.nonPositiveRadius, false⟩
      else
        let px := midpointCircle a b r
        if px.length > 0 then ⟨true, px, none, true⟩
        else ⟨true, [], some StartError.noPixels, false⟩
    | _, _, _ => ⟨true, [], some StartError.invalidCircleCoords, false⟩

/-- C3 counterexample: with the circle algorithm selected and radius 0,
the handler reports the invalid-radius error and produces no pixel
sequence, but the drawing surface has already been cleared by the
`clearGraphicsCanvas()` call at the top of the handler — a surface
mutation on the error path. -/
theorem handleStart_invalid_clears_surface :
    (handleStartVisualization Algo.midpointCircle
        (some 0) (some 0) (some 10) (some 10) (some 0) (some 0) (some 0)).errorMsg =
        some StartError.nonPositiveRadius ∧
      (handleStartVisualization Algo.midpointCircle
        (some 0) (some 0) (some 10) (some 10) (some 0) (some 0) (some 0)).pixelData = [] ∧
      (handleStartVisualization Algo.midpointCircle
        (some 0) (some 0) (some 10) (some 10) (some 0) (some 0) (some 0)).surfaceCleared
        = true := by
  decide

/-- C3 (amended): For every input whose selected algorithm's own
parameters contain a non-numeric value — or, for the circle, a radius
≤ 0 — the handler reports a validation error, produces no pixel sequence
(not even a partial one), and does not start playback; validation happens
before the algorithm is invoked.  (The unconditional canvas clear at the
top of the handler still mutates the surface; that part of the original
claim is dropped.) -/
theorem handleStart_invalid_rejected (algo : Algo)
    (x0 y0 x1 y1 cx cy radius : Option Int) :
    ((algo = Algo.dda ∨ algo = Algo.bresenham) →
      (x0 = none ∨ y0 = none ∨ x1 = none ∨ y1 = none) →
      (handleStartVisualization algo x0 y0 x1 y1 cx cy radius).errorMsg =
          some StartError.invalidLineCoords ∧
        (handleStartVisualization algo x0 y0 x1 y1 cx cy radius).pixelData = [] ∧
        (handleStartVisualization algo x0 y0 x1 y1 cx cy radius).animating = false) ∧
    (algo = Algo.midpointCircle →
      (cx = none ∨ cy = none ∨ radius = none ∨ ∃ r, radius = some r ∧ r ≤ 0) →
      (handleStartVisualization algo x0 y0 x1 y1 cx cy radius).errorMsg.isSome = true ∧
        (handleStartVisualization algo x0 y0 x1 y1 cx cy radius).pixelData = [] ∧
        (handleStartVisualization algo x0 y0 x1 y1 cx cy radius).animating = false) := by
  constructor
  · rintro (rfl | rfl) hbad
    · rcases x0 with _ | a
      · exact ⟨rfl, rfl, rfl⟩
      · rcases y0 with _ | b
        · exact ⟨rfl, rfl, rfl⟩
        · rcases x1 with _ | c
          · exact ⟨rfl, rfl, rfl⟩
          · rcases y1 with _ | d
            · exact ⟨rfl, rfl, rfl⟩
            · rcases hbad with h | h | h | h <;> cases h
    · rcases x0 with _ | a
      · exact ⟨rfl, rfl, rfl⟩
      · rcases y0 with _ | b
        · exact ⟨rfl, rfl, rfl⟩
        · rcases x1 with _ | c
          · exact ⟨rfl, rfl, rfl⟩
          · rcases y1 with _ | d
            · exact ⟨rfl, rfl, rfl⟩
            · rcases hbad with h | h | h | h <;> cases h
  · rintro rfl hbad
    rcases cx with _ | a
    · exact ⟨rfl, rfl, rfl⟩
    · rcases cy with _ | b
      · exact ⟨rfl, rfl, rfl⟩
      · rcases radius with _ | r
        · exact ⟨rfl, rfl, rfl⟩
        · rcases hbad with h | h | h | ⟨r', hr', hr0⟩
          · cases h
          · cases h
          · cases h
          · cases hr'
            rw [handleStartVisualization]
            rw [if_pos hr0]
            exact ⟨rfl, rfl, rfl⟩

/-- Witness for the amended C3 at concrete invalid inputs. -/
theorem handleStart_invalid_rejected_witness :
    (handleStartVisualization Algo.dda none (some 1) (some 2) (some 3)
        (some 0) (some 0) (some 5)).errorMsg = some StartError.invalidLineCoords ∧
      (handleStartVisualization Algo.dda none (some 1) (some 2) (some 3)
        (some 0) (some 0) (some 5)).pixelData = [] ∧
      (handleStartVisualization Algo.dda none (some 1) (some 2) (some 3)
        (some 0) (some 0) (some 5)).animating = false :=
  (handleStart_invalid_rejected Algo.dda none (some 1) (some 2) (some 3)
    (some 0) (some 0) (some 5)).1 (Or.inl rfl) (Or.inl rfl)

/-- Playback state of the graphics animation: `pending` records whether a
tick callback is currently queued for this run (the code keeps the handle
of the single queued `setTimeout` / `requestAnimationFrame` callback in
`graphicsTimeoutIdRef` / `graphicsAnimationFrameIdRef`, and every new
schedule first cancels the previously queued one, so at most one callback
is queued at a time and its handle is always held by the refs);
`index` is `currentIndex`. -/
structure PlayerState where
  pending : Bool
  index : Nat
deriving DecidableEq

/-- Observable callbacks of the playback engine: drawing step `i`
(`onStep`) or reporting completion (`onDone`). -/
inductive PlayerEvent
  | onStep (i : Nat)
  | onDone
deriving DecidableEq

/-- Scheduler actions for one playback run: the queued tick callback
fires, or the run is cancelled (`clearGraphicsCanvas` /
effect cleanup: `cancelAnimationFrame` + `clearTimeout`, which deletes the
queued callback). -/
inductive PlayerAction
  | fireTick
  | cancelRun
deriving DecidableEq

/-- One scheduler step for a run over a sequence of length `len`
(`animateGraphicsVisualization`): a fired tick does nothing if no callback
is queued (it was cancelled); otherwise it emits `onStep` for the current
index and re-queues itself, or emits `onDone` and stops re-queueing once
the sequence is exhausted.  Cancellation deletes the queued callback. -/
def playerStep (len : Nat) (st : PlayerState) : PlayerAction → PlayerState × List PlayerEvent
  | PlayerAction.cancelRun => (⟨false, st.index⟩, [])
  | PlayerAction.fireTick =>
    if st.pending then
      if st.index < len then (⟨true, st.index + 1⟩, [PlayerEvent.onStep st.index])
      else (⟨false, st.index⟩, [PlayerEvent.onDone])
    else (st, [])

/-- Run a list of scheduler actions, collecting all emitted events. -/
def playerRun (len : Nat) : PlayerState → List PlayerAction → PlayerState × List PlayerEvent
  | st, [] => (st, [])
  | st, a :: rest =>
    ((playerRun len (playerStep len st a).1 rest).1,
      (playerStep len st a).2 ++ (playerRun len (playerStep len st a).1 rest).2)

/-- Once cancelled, the run stays non-pending and emits nothing. -/
lemma playerRun_cancelled (len : Nat) :
    ∀ (acts : List PlayerAction) (i : Nat),
      (playerRun len ⟨false, i⟩ acts).2 = [] := by
  intro acts
  induction acts with
  | nil => intro i; rfl
  | cons a rest ih =>
    intro i
    cases a with
    | cancelRun => simpa [playerRun, playerStep] using ih i
    | fireTick => simpa [playerRun, playerStep] using ih i

/-- C7: For every in-progress playback run, once cancellation is requested
no further `onStep` or `onDone` callbacks for that run are invoked: after
a `cancelRun` action, the rest of the schedule — starting with a tick that
may already have been queued at the moment of cancellation — emits no
events at all. -/
theorem player_cancel_silences (len : Nat) (st : PlayerState)
    (before after : List PlayerAction) :
    (playerRun len (playerStep len (playerRun len st before).1
        PlayerAction.cancelRun).1 after).2 = [] := by
  have : (playerStep len (playerRun len st before).1 PlayerAction.cancelRun).1 =
      ⟨false, (playerRun len st before).1.index⟩ := rfl
  rw [this]
  exact playerRun_cancelled len after _

/-- Loop invariant of `midpointCircle`: the decision parameter satisfies
`p = x² + y² - r² + 2x - y + 1`, and the squared-distance error
`x² + y² - r²` of the current pair stays within `[1-r, r-1]`. -/
def CircleInv (r x y p : Int) : Prop :=
  0 ≤ x ∧ 0 ≤ y ∧ y ≤ r ∧ p = x ^ 2 + y ^ 2 - r ^ 2 + 2 * x - y + 1 ∧
    1 - r ≤ x ^ 2 + y ^ 2 - r ^ 2 ∧ x ^ 2 + y ^ 2 - r ^ 2 ≤ r - 1

/-- Every pair emitted by the circle loop from an invariant state has its
squared distance within `[r² + 1 - r, r² + r - 1]`. -/
lemma midLoopPairs_bounded (r : Int) :
    ∀ (x y p : Int), CircleInv r x y p →
      ∀ q ∈ midLoopPairs x y p,
        1 - r ≤ q.1 ^ 2 + q.2 ^ 2 - r ^ 2 ∧ q.1 ^ 2 + q.2 ^ 2 - r ^ 2 ≤ r - 1 := by
  intro x y p
  induction x, y, p using midLoopPairs.induct with
  | case1 x y p hxy hp ih =>
    intro hinv q hq
    obtain ⟨hx0, hy0, hyr, hpe, hlo, hhi⟩ := hinv
    have hinv2 : CircleInv r (x + 1) y (p + 2 * (x + 1) + 1) := by
      refine ⟨by omega, hy0, hyr, by linear_combination hpe, ?_, ?_⟩
      · nlinarith [hlo, hx0]
      · nlinarith [hpe, hp, hyr]
    rw [midLoopPairs, if_pos hxy, if_pos hp] at hq
    rcases List.mem_cons.mp hq with rfl | hq'
    · exact ⟨hinv2.2.2.2.2.1, hinv2.2.2.2.2.2⟩
    · exact ih hinv2 q hq'
  | case2 x y p hxy hp ih =>
    intro hinv q hq
    obtain ⟨hx0, hy0, hyr, hpe, hlo, hhi⟩ := hinv
    have hp0 : 0 ≤ p := by omega
    have hinv2 : CircleInv r (x + 1) (y - 1) (p + 2 * (x + 1) + 1 - 2 * (y - 1)) := by
      refine ⟨by omega, by omega, by omega, by linear_combination hpe, ?_, ?_⟩
      · nlinarith [hpe, hp0, hyr]
      · nlinarith [hhi, hxy]
    rw [midLoopPairs, if_pos hxy, if_neg hp] at hq
    rcases List.mem_cons.mp hq with rfl | hq'
    · exact ⟨hinv2.2.2.2.2.1, hinv2.2.2.2.2.2⟩
    · exact ih hinv2 q hq'
  | case3 x y p hxy =>
    intro _ q hq
    rw [midLoopPairs, if_neg hxy] at hq
    cases hq

/-- For `r ≥ 1`, every pair of `midPairs r` (the initial `(0, r)`
included) has its squared distance within `[r² + 1 - r, r² + r - 1]`. -/
lemma midPairs_bounded (r : Int) (hr : 1 ≤ r) :
    ∀ q ∈ midPairs r,
      1 - r ≤ q.1 ^ 2 + q.2 ^ 2 - r ^ 2 ∧ q.1 ^ 2 + q.2 ^ 2 - r ^ 2 ≤ r - 1 := by
  intro q hq
  rcases List.mem_cons.mp hq with rfl | hq'
  · constructor <;> (dsimp only; nlinarith [hr])
  · refine midLoopPairs_bounded r 0 r (1 - r) ?_ q hq'
    refine ⟨le_rfl, by omega, le_rfl, by ring, ?_, ?_⟩ <;> nlinarith [hr]

set_option maxHeartbeats 4000000 in
/-- The eight-octant list is closed under the three generating
reflections of the dihedral symmetry about the center. -/
lemma octPoints_mem_symm (cx cy a b u v : Int)
    (h : (cx + u, cy + v) ∈ octPoints cx cy a b) :
    (cx - u, cy + v) ∈ octPoints cx cy a b ∧
      (cx + u, cy - v) ∈ octPoints cx cy a b ∧
      (cx + v, cy + u) ∈ octPoints cx cy a b := by
  simp only [octPoints, List.mem_cons, List.not_mem_nil, or_false,
    Prod.mk.injEq] at h ⊢
  rcases h with ⟨h1, h2⟩ | ⟨h1, h2⟩ | ⟨h1, h2⟩ | ⟨h1, h2⟩ |
    ⟨h1, h2⟩ | ⟨h1, h2⟩ | ⟨h1, h2⟩ | ⟨h1, h2⟩ <;>
    exact ⟨by omega, by omega, by omega⟩

/-- C4: For every `r > 0`, the point set emitted by
`midpointCircle(cx,cy,r)` is closed under the circle's 8-way reflections
about the center (reflection in the vertical axis, the horizontal axis and
the main diagonal through `(cx,cy)`, which generate all eight), and every
emitted point lies at Euclidean distance between `r-1` and `r+1` from the
center (stated on squares); for `r ≤ 0`, starting the circle visualization
fails with the invalid-radius error and produces no point sequence. -/
theorem midpointCircle_symmetric_annulus (cx cy r : Int) :
    (0 < r →
      (∀ u v : Int, (cx + u, cy + v) ∈ midpointCircle cx cy r →
        (cx - u, cy + v) ∈ midpointCircle cx cy r ∧
          (cx + u, cy - v) ∈ midpointCircle cx cy r ∧
          (cx + v, cy + u) ∈ midpointCircle cx cy r) ∧
      (∀ q ∈ midpointCircle cx cy r,
        (r - 1) ^ 2 ≤ (q.1 - cx) ^ 2 + (q.2 - cy) ^ 2 ∧
          (q.1 - cx) ^ 2 + (q.2 - cy) ^ 2 ≤ (r + 1) ^ 2)) ∧
    (r ≤ 0 → ∀ x0 y0 x1 y1 : Option Int,
      (handleStartVisualization Algo.midpointCircle x0 y0 x1 y1
          (some cx) (some cy) (some r)).errorMsg = some StartError.nonPositiveRadius ∧
        (handleStartVisualization Algo.midpointCircle x0 y0 x1 y1
          (some cx) (some cy) (some r)).pixelData = []) := by
  constructor
  · intro hr
    constructor
    · intro u v hmem
      rw [midpointCircle, List.mem_flatMap] at hmem
      obtain ⟨pr, hpr, hoct⟩ := hmem
      have h3 := octPoints_mem_symm cx cy pr.1 pr.2 u v hoct
      refine ⟨?_, ?_, ?_⟩
      · rw [midpointCircle, List.mem_flatMap]
        exact ⟨pr, hpr, h3.1⟩
      · rw [midpointCircle, List.mem_flatMap]
        exact ⟨pr, hpr, h3.2.1⟩
      · rw [midpointCircle, List.mem_flatMap]
        exact ⟨pr, hpr, h3.2.2⟩
    · intro q hq
      rw [midpointCircle, List.mem_flatMap] at hq
      obtain ⟨pr, hpr, hoct⟩ := hq
      have hb := midPairs_bounded r (by omega) pr hpr
      simp only [octPoints, List.mem_cons, List.not_mem_nil, or_false] at hoct
      rcases hoct with rfl | rfl | rfl | rfl | rfl | rfl | rfl | rfl <;>
        exact ⟨by dsimp only; nlinarith [hb.1, hb.2, hr],
          by dsimp only; nlinarith [hb.1, hb.2, hr]⟩
  · intro hr x0 y0 x1 y1
    simp only [handleStartVisualization]
    rw [if_pos hr]
    exact ⟨rfl, rfl⟩

/-- Witness for C4 at `(cx, cy, r) = (0, 0, 5)` (symmetry and distance of
the emitted point `(0, 5)`) and at `r = 0` (the rejection branch). -/
theorem midpointCircle_symmetric_annulus_witness :
    ((0 - 0, 0 + 5) ∈ midpointCircle 0 0 5 ∧
        (0 + 0, 0 - 5) ∈ midpointCircle 0 0 5 ∧
        (0 + 5, 0 + 0) ∈ midpointCircle 0 0 5) ∧
      ((5 - 1) ^ 2 ≤ (((0, 5) : Int × Int).1 - 0) ^ 2 + (((0, 5) : Int × Int).2 - 0) ^ 2 ∧
        (((0, 5) : Int × Int).1 - 0) ^ 2 + (((0, 5) : Int × Int).2 - 0) ^ 2 ≤ (5 + 1) ^ 2) ∧
      (handleStartVisualization Algo.midpointCircle none none none none
        (some 0) (some 0) (some 0)).errorMsg = some StartError.nonPositiveRadius :=
  ⟨((midpointCircle_symmetric_annulus 0 0 5).1 (by decide)).1 0 5 (by decide),
    ((midpointCircle_symmetric_annulus 0 0 5).1 (by decide)).2 (0, 5) (by decide),
    (((midpointCircle_symmetric_annulus 0 0 0).2 (by decide)) none none none none).1⟩
